import Mathlib

/-!
Verification of the incremental streaming response parser of the gemini-rs
client library (`src/stream.rs` / `src/client.rs`).

The development shallowly embeds the parser: the byte buffer is a `List Nat`,
the transport is a list of events (chunks, pending wake-ups, a transport
error), and the `poll_next` pull loop is a structurally recursive function
over the remaining transport events.  Decoded response objects are modelled
by the byte span the decoder consumed, which is all the framing machinery
observes of them.
-/

namespace GeminiRs

/-- A byte of the network buffer (Rust `u8`, kept as `Nat`). -/
abbrev Byte := Nat

/-- Rust `u8::is_ascii_whitespace`: space, horizontal tab, line feed,
form feed, carriage return.  Used by `next_char_pos`. -/
def isAsciiWs (b : Byte) : Bool :=
  b = 32 || b = 9 || b = 10 || b = 12 || b = 13

/-- Whitespace as skipped by `serde_json` between JSON tokens: space,
horizontal tab, line feed, carriage return (no form feed). -/
def isJsonWs (b : Byte) : Bool :=
  b = 32 || b = 9 || b = 10 || b = 13

/-- Bytes that may occur in a JSON number token (digits, sign, decimal
point, exponent markers). -/
def isNumByte (b : Byte) : Bool :=
  (decide (48 ≤ b) && decide (b ≤ 57)) || b = 45 || b = 43 || b = 46 || b = 101 || b = 69

/-- Result of running a sub-parser of the one-value JSON decoder:
the unread remainder on success, end-of-input inside a value, or a
syntax error. -/
inductive PRes where
  | ok (rest : List Byte)
  | eofR
  | bad
deriving DecidableEq, Repr

/-- Consume the body of a JSON string after the opening quote: any bytes,
a backslash escaping the following byte, the closing quote ends it.
Running out of input mid-string is an end-of-input condition. -/
def parseStr : Nat → List Byte → PRes
  | 0, _ => .bad
  | _ + 1, [] => .eofR
  | f + 1, c :: rest =>
    if c = 34 then .ok rest
    else if c = 92 then
      match rest with
      | [] => .eofR
      | _ :: r2 => parseStr f r2
    else parseStr f rest

/-- Match the remaining letters of a literal (`true`/`false`/`null`);
a proper prefix of the literal at end of input is an end-of-input
condition, a mismatching byte a syntax error. -/
def parseLit : List Byte → List Byte → PRes
  | [], bs => .ok bs
  | _ :: _, [] => .eofR
  | l :: ls, b :: bs => if b = l then parseLit ls bs else .bad

/-- Consume a maximal run of number-alphabet bytes (the head byte is
known to start a number). -/
def parseNum (bs : List Byte) : PRes :=
  .ok (bs.dropWhile isNumByte)

/-- Which production the combined JSON parser is currently reducing:
a value, the inside of an object (after `{`), or the inside of an
array (after `[`). -/
inductive PMode where
  | val
  | obj
  | arr
deriving DecidableEq, Repr

/-- One-value JSON parser, fuelled.  Models the grammar walked by
`serde_json::Deserializer` when the code asks it for a single value:
objects, arrays, strings, numbers and literals, with inter-token
whitespace.  `PMode.obj` parses members after a `{` (closing `}`,
or `"key" : value` members separated by `,`); `PMode.arr` parses
elements after a `[`. -/
def parseCore : Nat → PMode → List Byte → PRes
  | 0, _, _ => .bad
  | _ + 1, _, [] => .eofR
  | f + 1, .val, c :: rest =>
    if c = 123 then parseCore f .obj (rest.dropWhile isJsonWs)
    else if c = 91 then parseCore f .arr (rest.dropWhile isJsonWs)
    else if c = 34 then parseStr f rest
    else if c = 116 then parseLit [114, 117, 101] rest
    else if c = 102 then parseLit [97, 108, 115, 101] rest
    else if c = 110 then parseLit [117, 108, 108] rest
    else if isNumByte c then parseNum (c :: rest)
    else .bad
  | f + 1, .obj, c :: rest =>
    if c = 125 then .ok rest
    else if c = 34 then
      match parseStr f rest with
      | .ok r2 =>
        match r2.dropWhile isJsonWs with
        | [] => .eofR
        | c2 :: r3 =>
          if c2 = 58 then
            match parseCore f .val (r3.dropWhile isJsonWs) with
            | .ok r4 =>
              match r4.dropWhile isJsonWs with
              | [] => .eofR
              | c3 :: r5 =>
                if c3 = 44 then parseCore f .obj (r5.dropWhile isJsonWs)
                else if c3 = 125 then .ok r5
                else .bad
            | e => e
          else .bad
      | e => e
    else .bad
  | f + 1, .arr, c :: rest =>
    if c = 93 then .ok rest
    else
      match parseCore f .val (c :: rest) with
      | .ok r2 =>
        match r2.dropWhile isJsonWs with
        | [] => .eofR
        | c2 :: r3 =>
          if c2 = 44 then parseCore f .arr (r3.dropWhile isJsonWs)
          else if c2 = 93 then .ok r3
          else .bad
      | e => e

/-- Parse one JSON value from the front of `bs`. -/
def parseVal (fuel : Nat) (bs : List Byte) : PRes :=
  parseCore fuel .val bs

/-- Outcome of one step of the streaming deserializer, as the code
observes it: `de.next()` returned `Some(Ok(v))` with `de.byte_offset()`
equal to `n`, an error with `e.is_eof()`, another error, or `None`. -/
inductive DecodeStep where
  | value (n : Nat)
  | eof
  | err
  | exhausted
deriving DecidableEq, Repr

/-- Models `serde_json::Deserializer::from_slice(bs).into_iter::<Response>().next()`
at the decoding boundary of the design: skip leading JSON whitespace; on
empty input the iterator is exhausted (`None`); otherwise parse exactly one
value, reporting the bytes consumed from the start of `bs` on success,
end-of-input inside a value as an eof-kind error, and anything else as a
syntax error.  The schema check of `types::Response` (a data error, not an
eof error, hence indistinguishable from a syntax error to the state
machine) is not modelled: every input used below is schema-valid or fails
already at the syntax level. -/
def serdeNext (bs : List Byte) : DecodeStep :=
  let trimmed := bs.dropWhile isJsonWs
  match trimmed with
  | [] => .exhausted
  | _ :: _ =>
    match parseVal (bs.length + 1) trimmed with
    | .ok rest => .value (bs.length - rest.length)
    | .eofR => .eof
    | .bad => .err

/-- `ParseState` of `src/stream.rs` (the spec's `NotStarted`,
`ExpectingElementOrEnd`, `ExpectingValue`, `Done`). -/
inductive ParseState where
  | cannotAdvance
  | readingChars
  | readingValue
  | finished
deriving DecidableEq, Repr

/-- The Rust `Debug` rendering of a `ParseState`, as interpolated into
the incomplete-stream error message. -/
def stateName : ParseState → String
  | .cannotAdvance => "CannotAdvance"
  | .readingChars => "ReadingChars"
  | .readingValue => "ReadingValue"
  | .finished => "Finished"

/-- The parsing fields of `RouteStream`: the accumulated byte buffer,
the read cursor `pos`, and the state machine state. -/
structure RouteStream where
  buffer : List Byte
  pos : Nat
  state : ParseState
deriving DecidableEq, Repr

/-- `next_char_pos`: position of the first non-whitespace byte at or
after the cursor, if any. -/
def wsPrefixLen : List Byte → Nat
  | [] => 0
  | b :: rest => if isAsciiWs b then wsPrefixLen rest + 1 else 0

/-- `next_char_pos`: index into the whole buffer of the first
non-whitespace byte at or after the cursor, `none` if only whitespace
remains. -/
def nextCharPos (s : RouteStream) : Option Nat :=
  let suffix := s.buffer.drop s.pos
  let i := wsPrefixLen suffix
  if i < suffix.length then some (s.pos + i) else none

/-- The cursor value installed by `advance_next_char`:
`next_char_pos().unwrap_or(buffer.len())`. -/
def skipPos (s : RouteStream) : Nat :=
  (nextCharPos s).getD s.buffer.length

/-- `current_char`: the byte under the cursor, if in range. -/
def currentChar (s : RouteStream) : Option Byte :=
  s.buffer[s.pos]?

/-- `is_bridge_char`: the cursor sits on `[` or `,`. -/
def isBridgeChar (s : RouteStream) : Bool :=
  currentChar s = some 91 || currentChar s = some 44

/-- `ParseOutcome` of the source: a decoded value (modelled by the byte
span the decoder consumed), `Ok(None)` when the deserializer was
exhausted, a decode error, or an eof-kind error. -/
inductive ParseOutcome where
  | ok (v : Option (List Byte))
  | err
  | eof
deriving DecidableEq, Repr

/-- `parse_chunk`: run the stream deserializer on `buffer[pos..]`; on a
decoded value advance the cursor by the reported byte offset. -/
def parseChunk (s : RouteStream) : RouteStream × ParseOutcome :=
  match serdeNext (s.buffer.drop s.pos) with
  | .value n => ({ s with pos := s.pos + n }, .ok (some ((s.buffer.drop s.pos).take n)))
  | .eof => (s, .eof)
  | .err => (s, .err)
  | .exhausted => (s, .ok none)

/-- `try_parse_next`: one step of the state machine.  In `ReadingChars`
skip whitespace (`advance_next_char`), consume a bridge character (`[` or
`,`) moving to `ReadingValue`, or finish on `]`; in `ReadingValue` skip
whitespace and attempt one decode, updating the state from the outcome. -/
def tryParseNext (s : RouteStream) : RouteStream × Option ParseOutcome :=
  match s.state with
  | .cannotAdvance => (s, none)
  | .readingChars =>
    if isBridgeChar { s with pos := skipPos s } then
      ({ s with pos := skipPos s + 1, state := .readingValue }, none)
    else if currentChar { s with pos := skipPos s } = some 93 then
      ({ s with pos := skipPos s, state := .finished }, some (.ok none))
    else ({ s with pos := skipPos s }, none)
  | .readingValue =>
    match parseChunk { s with pos := skipPos s } with
    | (s2, .ok (some v)) => ({ s2 with state := .readingChars }, some (.ok (some v)))
    | (s2, .ok none) => ({ s2 with state := .finished }, some (.ok none))
    | (s2, .err) => ({ s2 with state := .finished }, some .err)
    | (s2, .eof) => (s2, some .eof)
  | .finished => (s, none)

/-- One event of the underlying transport (`reqwest::Response::bytes_stream`):
a delivered byte chunk, a pending wake-up (`Poll::Pending`), or a
transport-level error item.  A clean end of the transport is the
exhaustion of the event list (and further polls of an ended transport
keep signalling the end). -/
inductive TransportEvent where
  | chunk (bytes : List Byte)
  | pending
  | terr
deriving DecidableEq, Repr

/-- Modelled from the spec: an item of the produced pull sequence under the
error taxonomy of the design (the crate's `error.rs` is not in the source
tree).  A decoded response object is identified by the byte span the
decoder consumed for it; `errHttp` is the propagated transport error;
`errDecode` wraps the decode failure; `errCustom` is the
`serde_json::Error::custom` incomplete-stream error carrying its message. -/
inductive Item where
  | obj (bytes : List Byte)
  | errHttp
  | errDecode
  | errCustom (msg : String)
deriving DecidableEq, Repr

/-- The value of one `poll_next` call: `Poll::Ready(Option<Item>)` or
`Poll::Pending`. -/
inductive PollResult where
  | ready (item? : Option Item)
  | pending
deriving DecidableEq, Repr

/-- The message built when the transport ends with unparsed data:
`format!("stream ended with unparsed data in state {:?}", self.state)`. -/
def incompleteMsg (st : ParseState) : String :=
  "stream ended with unparsed data in state " ++ stateName st

/-- The housekeeping step at the top of the pull loop: when the cursor
exceeds the threshold (`2048` in the code; `none` disables compaction),
drop the consumed prefix `[0, pos)` and reset the cursor to `0`. -/
def compactStep (th : Option Nat) (s : RouteStream) : RouteStream :=
  match th with
  | none => s
  | some t =>
    if t < s.pos then { buffer := s.buffer.drop s.pos, pos := 0, state := s.state }
    else s

/-- The `match outcome` of `poll_next` in `src/stream.rs`: which outcomes
of `try_parse_next` return immediately from the loop (`some` of the
returned `Option<Item>`), and which fall through to polling the
transport (`none`): a decoded object is yielded, `Ok(None)` in the
`Finished` state ends the sequence, a decode error is yielded, and
`Eof` (like the remaining cases) continues the loop. -/
def outcomeResult (o? : Option ParseOutcome) (st : ParseState) : Option (Option Item) :=
  match o? with
  | some (.ok (some v)) => some (some (.obj v))
  | some (.ok none) => if st = .finished then some none else none
  | some .err => some (some .errDecode)
  | some .eof => none
  | none => none

/-- The `Poll::Ready(None)` arm of the transport poll: if the parser is
not `Finished` and unconsumed bytes remain, surface the incomplete-stream
error (leaving the state untouched); otherwise mark the parser `Finished`
and end the sequence. -/
def endOfStream (s : RouteStream) : PollResult × RouteStream :=
  if s.state ≠ .finished ∧ s.pos < s.buffer.length then
    (.ready (some (.errCustom (incompleteMsg s.state))), s)
  else
    (.ready none, { s with state := .finished })

/-- The handling of an arrived chunk: if the buffer is empty and the chunk
is not, this is the first data ever received, so enter `ReadingChars`;
then append the chunk to the buffer. -/
def appendChunk (s : RouteStream) (bytes : List Byte) : RouteStream :=
  if s.buffer.isEmpty && !bytes.isEmpty then
    { s with buffer := s.buffer ++ bytes, state := .readingChars }
  else
    { s with buffer := s.buffer ++ bytes }

/-- The parser state after the housekeeping and `try_parse_next` part of
one loop iteration of `poll_next`. -/
def afterTry (th : Option Nat) (s : RouteStream) : RouteStream :=
  (tryParseNext (compactStep th s)).1

/-- The early return of one loop iteration of `poll_next`, if any
(see `outcomeResult`). -/
def pollReturn (th : Option Nat) (s : RouteStream) : Option (Option Item) :=
  outcomeResult (tryParseNext (compactStep th s)).2 (afterTry th s).state

/-- `poll_next` of `impl Stream for RouteStream<StreamGenerateContent>`
(`src/stream.rs`): loop { compact; try_parse_next and return its item if
it produced one; otherwise poll the transport: on a chunk mark the
first-ever data `ReadingChars`, append, and loop; on `Pending` suspend;
on a transport error finish and yield it; on the transport's end run the
clean-end check }.  The recursion consumes one transport event per
iteration, so it is structural in the event list. -/
def pollNext (th : Option Nat) :
    RouteStream → List TransportEvent → PollResult × RouteStream × List TransportEvent
  | s, events =>
    match pollReturn th s with
    | some item? => (.ready item?, afterTry th s, events)
    | none =>
      match events with
      | [] => ((endOfStream (afterTry th s)).1, (endOfStream (afterTry th s)).2, [])
      | .chunk bytes :: rest => pollNext th (appendChunk (afterTry th s) bytes) rest
      | .pending :: rest => (.pending, afterTry th s, rest)
      | .terr :: rest =>
        (.ready (some .errHttp), { afterTry th s with state := .finished }, rest)

/-- Drive the pull sequence: repeatedly call `poll_next`, collecting the
yielded items, until the sequence ends (`Ready(None)`) or the fuel runs
out; a `Pending` result is followed by another poll, as an executor
would after a wake-up. -/
def drive (th : Option Nat) : Nat → RouteStream → List TransportEvent → List Item
  | 0, _, _ => []
  | fuel + 1, s, events =>
    match pollNext th s events with
    | (.ready none, _, _) => []
    | (.ready (some item), s', ev') => item :: drive th fuel s' ev'
    | (.pending, s', ev') => drive th fuel s' ev'

/-- The `RouteStream` built by `Route::stream`: empty buffer, cursor `0`,
state `CannotAdvance`. -/
def initStream : RouteStream :=
  { buffer := [], pos := 0, state := .cannotAdvance }

/-- The compaction threshold hard-coded in `poll_next`. -/
def codeThreshold : Option Nat := some 2048

/-! ### Basic facts about the scanning and decoding primitives -/

theorem wsPrefixLen_le (l : List Byte) : wsPrefixLen l ≤ l.length := by
  induction l with
  | nil => simp [wsPrefixLen]
  | cons b rest ih =>
    simp only [wsPrefixLen, List.length_cons]
    split <;> omega

theorem skipPos_eq (s : RouteStream) :
    skipPos s =
      if wsPrefixLen (s.buffer.drop s.pos) < (s.buffer.drop s.pos).length
      then s.pos + wsPrefixLen (s.buffer.drop s.pos) else s.buffer.length := by
  unfold skipPos nextCharPos
  by_cases h : wsPrefixLen (s.buffer.drop s.pos) < (s.buffer.drop s.pos).length
  · rw [if_pos h, if_pos h]
    rfl
  · rw [if_neg h, if_neg h]
    rfl

theorem skipPos_bounds (s : RouteStream) (h : s.pos ≤ s.buffer.length) :
    s.pos ≤ skipPos s ∧ skipPos s ≤ s.buffer.length := by
  have hlen : (s.buffer.drop s.pos).length = s.buffer.length - s.pos :=
    List.length_drop _ _
  rw [skipPos_eq]
  split <;> omega

theorem currentChar_some_lt {s : RouteStream} {c : Byte}
    (h : currentChar s = some c) : s.pos < s.buffer.length := by
  by_contra hn
  rw [currentChar, List.getElem?_eq_none (by omega)] at h
  exact Option.noConfusion h

theorem serdeNext_nil : serdeNext [] = .exhausted := rfl

theorem serdeNext_value_le {bs : List Byte} {n : Nat}
    (h : serdeNext bs = .value n) : n ≤ bs.length := by
  simp only [serdeNext] at h
  split at h
  · exact absurd h (by simp)
  · split at h <;> simp_all
    omega

theorem serdeNext_ne_exhausted_ne_nil {bs : List Byte}
    (h : serdeNext bs ≠ .exhausted) : bs ≠ [] := by
  intro hbs
  subst hbs
  exact h serdeNext_nil

/-! ### Cursor and buffer facts about the individual operations -/

theorem parseChunk_buffer (s : RouteStream) : (parseChunk s).1.buffer = s.buffer := by
  unfold parseChunk
  split <;> rfl

theorem parseChunk_state (s : RouteStream) : (parseChunk s).1.state = s.state := by
  unfold parseChunk
  split <;> rfl

theorem parseChunk_pos (s : RouteStream) (h : s.pos ≤ s.buffer.length) :
    s.pos ≤ (parseChunk s).1.pos ∧ (parseChunk s).1.pos ≤ s.buffer.length := by
  have hlen : (s.buffer.drop s.pos).length = s.buffer.length - s.pos :=
    List.length_drop _ _
  unfold parseChunk
  split
  next n heq =>
    have hn := serdeNext_value_le heq
    exact ⟨by dsimp only; omega, by dsimp only; omega⟩
  all_goals exact ⟨le_refl _, h⟩

theorem isBridgeChar_lt {s : RouteStream} (h : isBridgeChar s = true) :
    s.pos < s.buffer.length := by
  unfold isBridgeChar at h
  rcases Bool.or_eq_true_iff.mp h with h' | h' <;>
    exact currentChar_some_lt (by exact of_decide_eq_true h')

theorem tryParseNext_buffer (s : RouteStream) :
    (tryParseNext s).1.buffer = s.buffer := by
  unfold tryParseNext
  split
  · rfl
  · split
    · rfl
    split <;> rfl
  · have hb := parseChunk_buffer { s with pos := skipPos s }
    split <;> (rename_i hpc; rw [hpc] at hb; simpa using hb)
  · rfl

theorem compactStep_none (s : RouteStream) : compactStep none s = s := rfl

theorem compactStep_pos (th : Option Nat) (s : RouteStream) (h : s.pos ≤ s.buffer.length) :
    (compactStep th s).pos ≤ (compactStep th s).buffer.length ∧
      (compactStep th s).state = s.state := by
  cases th with
  | none => exact ⟨h, rfl⟩
  | some t =>
    by_cases ht : t < s.pos
    · simp only [compactStep, if_pos ht]
      exact ⟨Nat.zero_le _, trivial⟩
    · simp only [compactStep, if_neg ht]
      exact ⟨h, trivial⟩

theorem appendChunk_parts (s : RouteStream) (bytes : List Byte) :
    (appendChunk s bytes).buffer = s.buffer ++ bytes ∧
      (appendChunk s bytes).pos = s.pos := by
  unfold appendChunk
  split <;> exact ⟨rfl, rfl⟩

theorem tryParseNext_pos (s : RouteStream) (h : s.pos ≤ s.buffer.length) :
    s.pos ≤ (tryParseNext s).1.pos ∧ (tryParseNext s).1.pos ≤ s.buffer.length := by
  obtain ⟨hsk1, hsk2⟩ := skipPos_bounds s h
  unfold tryParseNext
  split
  · exact ⟨le_refl _, h⟩
  · split
    next hb =>
      have hlt := isBridgeChar_lt hb
      simp only [] at hlt ⊢
      omega
    split <;> exact ⟨hsk1, hsk2⟩
  · have hp := parseChunk_pos { s with pos := skipPos s } (by simpa using hsk2)
    have hb := parseChunk_buffer { s with pos := skipPos s }
    split <;>
      (rename_i hpc; rw [hpc] at hp hb; dsimp only at hp hb ⊢; constructor <;> omega)
  · exact ⟨le_refl _, h⟩

theorem afterTry_pos (th : Option Nat) (s : RouteStream) (h : s.pos ≤ s.buffer.length) :
    (afterTry th s).pos ≤ (afterTry th s).buffer.length := by
  unfold afterTry
  rw [tryParseNext_buffer]
  exact (tryParseNext_pos _ (compactStep_pos th s h).1).2

theorem pollNext_pos (th : Option Nat) (ev : List TransportEvent) :
    ∀ s : RouteStream, s.pos ≤ s.buffer.length →
      (pollNext th s ev).2.1.pos ≤ (pollNext th s ev).2.1.buffer.length := by
  induction ev with
  | nil =>
    intro s h
    have h2 := afterTry_pos th s h
    rw [pollNext.eq_1]
    cases hr : pollReturn th s with
    | some item? => simpa using h2
    | none =>
      simp only []
      unfold endOfStream
      split
      · simpa using h2
      · simpa using h2
  | cons e rest ih =>
    intro s h
    have h2 := afterTry_pos th s h
    cases e with
    | chunk bytes =>
      rw [pollNext.eq_2]
      cases hr : pollReturn th s with
      | some item? => simpa using h2
      | none =>
        simp only []
        apply ih
        obtain ⟨hb, hp⟩ := appendChunk_parts (afterTry th s) bytes
        rw [hb, hp, List.length_append]
        omega
    | pending =>
      rw [pollNext.eq_3]
      cases hr : pollReturn th s with
      | some item? => simpa using h2
      | none => simpa using h2
    | terr =>
      rw [pollNext.eq_4]
      cases hr : pollReturn th s with
      | some item? => simpa using h2
      | none => simpa using h2

/-! ### A compacted stream simulates an uncompacted one

`related k sc su` says the compacting stream `sc` is the uncompacting
stream `su` with the first `k` (fully consumed) buffer bytes dropped. -/

def related (k : Nat) (sc su : RouteStream) : Prop :=
  sc.state = su.state ∧ k ≤ su.pos ∧ su.pos ≤ su.buffer.length ∧
    sc.buffer = su.buffer.drop k ∧ sc.pos = su.pos - k ∧
    (su.state = .cannotAdvance → su.buffer = [] ∧ k = 0)

theorem related_suffix {k : Nat} {sc su : RouteStream} (h : related k sc su) :
    sc.buffer.drop sc.pos = su.buffer.drop su.pos := by
  obtain ⟨-, hk, -, hb, hp, -⟩ := h
  rw [hb, hp, List.drop_drop]
  congr 1
  omega

theorem related_length {k : Nat} {sc su : RouteStream} (h : related k sc su) :
    sc.buffer.length = su.buffer.length - k := by
  rw [h.2.2.2.1]
  exact List.length_drop _ _

theorem related_currentChar {k : Nat} {sc su : RouteStream} (h : related k sc su) :
    currentChar sc = currentChar su := by
  obtain ⟨-, hk, -, hb, hp, -⟩ := h
  unfold currentChar
  rw [hb, hp, List.getElem?_drop]
  congr 1
  omega

theorem related_skipPos {k : Nat} {sc su : RouteStream} (h : related k sc su) :
    skipPos sc = skipPos su - k ∧ k ≤ skipPos su ∧ su.pos ≤ skipPos su ∧
      skipPos su ≤ su.buffer.length := by
  have hsuf := related_suffix h
  have hlc := related_length h
  obtain ⟨hst, hk, hlen, hb, hp, hca⟩ := h
  have hsl : (su.buffer.drop su.pos).length = su.buffer.length - su.pos :=
    List.length_drop _ _
  have hw := wsPrefixLen_le (su.buffer.drop su.pos)
  rw [skipPos_eq sc, skipPos_eq su, hsuf]
  by_cases hcond : wsPrefixLen (su.buffer.drop su.pos) < (su.buffer.drop su.pos).length
  · rw [if_pos hcond, if_pos hcond]
    refine ⟨?_, ?_, ?_, ?_⟩ <;> omega
  · rw [if_neg hcond, if_neg hcond]
    refine ⟨?_, ?_, ?_, ?_⟩ <;> omega

theorem related_skip {k : Nat} {sc su : RouteStream} (h : related k sc su) :
    related k { sc with pos := skipPos sc } { su with pos := skipPos su } := by
  obtain ⟨hsp, hk2, hp2, hle⟩ := related_skipPos h
  obtain ⟨hst, hk, hlen, hb, hp, hca⟩ := h
  exact ⟨hst, hk2, hle, hb, hsp, fun hcu => hca hcu⟩

theorem drop_ne_nil_lt {l : List Byte} {p : Nat} (h : l.drop p ≠ []) : p < l.length := by
  by_contra hn
  exact h (List.drop_eq_nil_of_le (by omega))

theorem parseChunk_eof {s : RouteStream} (h : (parseChunk s).2 = .eof) :
    serdeNext (s.buffer.drop s.pos) = .eof := by
  unfold parseChunk at h
  split at h <;> simp_all

theorem parseChunk_err {s : RouteStream} (h : (parseChunk s).2 = .err) :
    serdeNext (s.buffer.drop s.pos) = .err := by
  unfold parseChunk at h
  split at h <;> simp_all

theorem tryParseNext_ca {s : RouteStream} (h : s.state = .cannotAdvance) :
    tryParseNext s = (s, none) := by
  unfold tryParseNext
  rw [h]

theorem tryParseNext_rc {s : RouteStream} (h : s.state = .readingChars) :
    tryParseNext s =
      (if isBridgeChar { s with pos := skipPos s } then
        ({ s with pos := skipPos s + 1, state := .readingValue }, none)
      else if currentChar { s with pos := skipPos s } = some 93 then
        ({ s with pos := skipPos s, state := .finished }, some (.ok none))
      else ({ s with pos := skipPos s }, none)) := by
  unfold tryParseNext
  rw [h]

theorem tryParseNext_rv {s : RouteStream} (h : s.state = .readingValue) :
    tryParseNext s =
      (match parseChunk { s with pos := skipPos s } with
       | (s2, .ok (some v)) => ({ s2 with state := .readingChars }, some (.ok (some v)))
       | (s2, .ok none) => ({ s2 with state := .finished }, some (.ok none))
       | (s2, .err) => ({ s2 with state := .finished }, some .err)
       | (s2, .eof) => (s2, some .eof)) := by
  unfold tryParseNext
  rw [h]

theorem tryParseNext_fin {s : RouteStream} (h : s.state = .finished) :
    tryParseNext s = (s, none) := by
  unfold tryParseNext
  rw [h]

theorem related_setState {k : Nat} {sc su : RouteStream} (h : related k sc su)
    (st : ParseState) (hns : st ≠ .cannotAdvance) :
    related k { sc with state := st } { su with state := st } := by
  obtain ⟨hst, hk, hlen, hb, hp, hca⟩ := h
  exact ⟨rfl, hk, hlen, hb, hp, fun hx => absurd hx hns⟩

theorem parseChunk_related {k : Nat} {sc su : RouteStream} (h : related k sc su) :
    (parseChunk sc).2 = (parseChunk su).2 ∧
      related k (parseChunk sc).1 (parseChunk su).1 := by
  have hsuf := related_suffix h
  have hsl : (su.buffer.drop su.pos).length = su.buffer.length - su.pos :=
    List.length_drop _ _
  obtain ⟨hst, hk, hlen, hb, hp, hca⟩ := h
  unfold parseChunk
  rw [hsuf]
  cases hs : serdeNext (su.buffer.drop su.pos) with
  | value n =>
    have hn := serdeNext_value_le hs
    dsimp only
    refine ⟨rfl, hst, ?_, ?_, hb, ?_, fun hcu => hca hcu⟩
    · show k ≤ su.pos + n
      omega
    · show su.pos + n ≤ su.buffer.length
      omega
    · show sc.pos + n = su.pos + n - k
      omega
  | eof =>
    dsimp only
    exact ⟨rfl, hst, hk, hlen, hb, hp, hca⟩
  | err =>
    dsimp only
    exact ⟨rfl, hst, hk, hlen, hb, hp, hca⟩
  | exhausted =>
    dsimp only
    exact ⟨rfl, hst, hk, hlen, hb, hp, hca⟩

theorem tryParseNext_related {k : Nat} {sc su : RouteStream} (h : related k sc su) :
    (tryParseNext sc).2 = (tryParseNext su).2 ∧
      related k (tryParseNext sc).1 (tryParseNext su).1 ∧
      ((tryParseNext su).1.state = .readingValue → k < su.buffer.length) := by
  have hrel1 := related_skip h
  have hcc := related_currentChar hrel1
  obtain ⟨hsp, hks, hps, hle⟩ := related_skipPos h
  have hst := h.1
  cases hsu : su.state with
  | cannotAdvance =>
    rw [tryParseNext_ca (hst.trans hsu), tryParseNext_ca hsu]
    refine ⟨rfl, h, fun hx => ?_⟩
    rw [hsu] at hx
    exact absurd hx (by decide)
  | readingChars =>
    rw [tryParseNext_rc (hst.trans hsu), tryParseNext_rc hsu]
    have hbr : isBridgeChar { sc with pos := skipPos sc } =
        isBridgeChar { su with pos := skipPos su } := by
      unfold isBridgeChar
      rw [hcc]
    by_cases hbc : isBridgeChar { su with pos := skipPos su } = true
    · have hlt : skipPos su < su.buffer.length := isBridgeChar_lt hbc
      rw [hbr, if_pos hbc, if_pos hbc]
      refine ⟨rfl, ⟨rfl, ?_, ?_, h.2.2.2.1, ?_, fun hx => by simp at hx⟩,
        fun hx => by omega⟩
      · show k ≤ skipPos su + 1
        omega
      · show skipPos su + 1 ≤ su.buffer.length
        omega
      · show skipPos sc + 1 = skipPos su + 1 - k
        omega
    · rw [hbr, if_neg hbc, if_neg hbc, hcc]
      by_cases h93 : currentChar { su with pos := skipPos su } = some 93
      · rw [if_pos h93, if_pos h93]
        exact ⟨rfl, ⟨rfl, hks, hle, h.2.2.2.1, hsp, fun hx => by simp at hx⟩,
          fun hx => by simp at hx⟩
      · rw [if_neg h93, if_neg h93]
        exact ⟨rfl, hrel1, fun hx => by simp [hsu] at hx⟩
  | readingValue =>
    rw [tryParseNext_rv (hst.trans hsu), tryParseNext_rv hsu]
    have hpc := parseChunk_related hrel1
    rcases hc : parseChunk { sc with pos := skipPos sc } with ⟨c2, oc⟩
    rcases hu : parseChunk { su with pos := skipPos su } with ⟨u2, ou⟩
    rw [hc, hu] at hpc
    obtain ⟨hoeq, hrel2⟩ := hpc
    dsimp only at hoeq
    subst hoeq
    cases oc with
    | ok v? =>
      cases v? with
      | some v =>
        dsimp only
        exact ⟨rfl, related_setState hrel2 _ (by decide), fun hx => by simp at hx⟩
      | none =>
        dsimp only
        exact ⟨rfl, related_setState hrel2 _ (by decide), fun hx => by simp at hx⟩
    | err =>
      dsimp only
      exact ⟨rfl, related_setState hrel2 _ (by decide), fun hx => by simp at hx⟩
    | eof =>
      dsimp only
      refine ⟨rfl, hrel2, fun hx => ?_⟩
      have he : (parseChunk { su with pos := skipPos su }).2 = .eof := by
        rw [hu]
      have hse := parseChunk_eof he
      have hnn : su.buffer.drop (skipPos su) ≠ [] := by
        have : serdeNext (su.buffer.drop (skipPos su)) ≠ .exhausted := by
          intro hx2
          rw [show ({ su with pos := skipPos su } : RouteStream).buffer.drop
            ({ su with pos := skipPos su } : RouteStream).pos =
            su.buffer.drop (skipPos su) from rfl] at hse
          rw [hse] at hx2
          exact DecodeStep.noConfusion hx2
        exact serdeNext_ne_exhausted_ne_nil this
      have hlt := drop_ne_nil_lt hnn
      omega
  | finished =>
    rw [tryParseNext_fin (hst.trans hsu), tryParseNext_fin hsu]
    refine ⟨rfl, h, fun hx => ?_⟩
    rw [hsu] at hx
    exact absurd hx (by decide)

theorem compactStep_related {t k : Nat} {sc su : RouteStream} (h : related k sc su) :
    ∃ k', related k' (compactStep (some t) sc) su := by
  by_cases ht : t < sc.pos
  · refine ⟨k + sc.pos, ?_⟩
    obtain ⟨hst, hk, hlen, hb, hp, hca⟩ := h
    simp only [compactStep, if_pos ht]
    refine ⟨hst, ?_, hlen, ?_, ?_, ?_⟩
    · show k + sc.pos ≤ su.pos
      omega
    · show sc.buffer.drop sc.pos = su.buffer.drop (k + sc.pos)
      rw [hb, List.drop_drop]
    · show (0 : Nat) = su.pos - (k + sc.pos)
      omega
    · intro hcu
      obtain ⟨hbu, hk0⟩ := hca hcu
      have : su.buffer.length = 0 := by rw [hbu]; rfl
      exact ⟨hbu, by omega⟩
  · refine ⟨k, ?_⟩
    simpa only [compactStep, if_neg ht] using h

/-- `try_parse_next` reports a decode error only from the `ReadingValue`
state, leaving the parser `Finished` with the cursor on the offending
(non-empty) input. -/
theorem tryParse_err_fin {s : RouteStream} (h : (tryParseNext s).2 = some .err) :
    (tryParseNext s).1.state = .finished ∧
      (tryParseNext s).1.pos < (tryParseNext s).1.buffer.length := by
  cases hsu : s.state with
  | cannotAdvance => rw [tryParseNext_ca hsu] at h ⊢; exact absurd h (by simp)
  | finished => rw [tryParseNext_fin hsu] at h ⊢; exact absurd h (by simp)
  | readingChars =>
    rw [tryParseNext_rc hsu] at h ⊢
    split at h
    · exact absurd h (by simp)
    · split at h <;> exact absurd h (by simp)
  | readingValue =>
    rw [tryParseNext_rv hsu] at h ⊢
    rcases hu : parseChunk { s with pos := skipPos s } with ⟨u2, ou⟩
    rw [hu] at h
    cases ou with
    | ok v? => cases v? <;> simp at h
    | eof => simp at h
    | err =>
      dsimp only
      have hse := parseChunk_err (by rw [hu] : (parseChunk { s with pos := skipPos s }).2 = .err)
      have hnn : s.buffer.drop (skipPos s) ≠ [] := by
        refine serdeNext_ne_exhausted_ne_nil ?_
        intro hx2
        rw [show ({ s with pos := skipPos s } : RouteStream).buffer.drop
          ({ s with pos := skipPos s } : RouteStream).pos =
          s.buffer.drop (skipPos s) from rfl] at hse
        rw [hse] at hx2
        exact DecodeStep.noConfusion hx2
      have hlt := drop_ne_nil_lt hnn
      have hu1 : u2 = { s with pos := skipPos s } := by
        have hb := parseChunk_buffer { s with pos := skipPos s }
        have : (parseChunk { s with pos := skipPos s }).1 = u2 := by rw [hu]
        rw [← this]
        unfold parseChunk
        split <;> simp_all
      rw [hu1]
      exact ⟨rfl, hlt⟩

/-- `try_parse_next` yields a decoded object only from `ReadingValue`,
moving to `ReadingChars`. -/
theorem tryParse_obj_rc {s : RouteStream} {v : List Byte}
    (h : (tryParseNext s).2 = some (.ok (some v))) :
    (tryParseNext s).1.state = .readingChars := by
  cases hsu : s.state with
  | cannotAdvance => rw [tryParseNext_ca hsu] at h; exact absurd h (by simp)
  | finished => rw [tryParseNext_fin hsu] at h; exact absurd h (by simp)
  | readingChars =>
    rw [tryParseNext_rc hsu] at h
    split at h
    · exact absurd h (by simp)
    · split at h <;> exact absurd h (by simp)
  | readingValue =>
    rw [tryParseNext_rv hsu] at h ⊢
    rcases hu : parseChunk { s with pos := skipPos s } with ⟨u2, ou⟩
    rw [hu] at h
    cases ou with
    | ok v? => cases v? <;> simp_all
    | eof => simp at h
    | err => simp at h

/-- When `try_parse_next` produces no early-return outcome (`None` or
`Eof`), it cannot have newly entered `Finished`. -/
theorem tryParse_quiet_fin {s : RouteStream}
    (h : (tryParseNext s).2 = none ∨ (tryParseNext s).2 = some .eof)
    (hf : (tryParseNext s).1.state = .finished) : s.state = .finished := by
  cases hsu : s.state with
  | cannotAdvance =>
    rw [tryParseNext_ca hsu] at hf
    dsimp only at hf
    rw [hsu] at hf
    exact hf
  | finished => rfl
  | readingChars =>
    rw [tryParseNext_rc hsu] at h hf
    by_cases hbc : isBridgeChar { s with pos := skipPos s } = true
    · rw [if_pos hbc] at hf
      simp at hf
    · rw [if_neg hbc] at h hf
      by_cases h93 : currentChar { s with pos := skipPos s } = some 93
      · rw [if_pos h93] at h
        rcases h with h | h <;> simp at h
      · rw [if_neg h93] at hf
        dsimp only at hf
        rw [hsu] at hf
        exact hf
  | readingValue =>
    rw [tryParseNext_rv hsu] at h hf
    rcases hu : parseChunk { s with pos := skipPos s } with ⟨u2, ou⟩
    rw [hu] at h hf
    cases ou with
    | ok v? =>
      cases v?
      · rcases h with h | h <;> simp at h
      · simp at hf
    | err => rcases h with h | h <;> simp at h
    | eof =>
      dsimp only at hf
      have hst2 := parseChunk_state { s with pos := skipPos s }
      rw [hu] at hst2
      dsimp only at hst2
      rw [hst2] at hf
      rw [hsu] at hf
      exact hf

theorem tryParse_oknone_fin {s : RouteStream}
    (h : (tryParseNext s).2 = some (.ok none)) :
    (tryParseNext s).1.state = .finished := by
  cases hsu : s.state with
  | cannotAdvance => rw [tryParseNext_ca hsu] at h; exact absurd h (by simp)
  | finished => rw [tryParseNext_fin hsu] at h; exact absurd h (by simp)
  | readingChars =>
    rw [tryParseNext_rc hsu] at h ⊢
    split at h
    · exact absurd h (by simp)
    · split at h
      · rw [if_neg (by assumption), if_pos (by assumption)]
      · exact absurd h (by simp)
  | readingValue =>
    rw [tryParseNext_rv hsu] at h ⊢
    rcases hu : parseChunk { s with pos := skipPos s } with ⟨u2, ou⟩
    rw [hu] at h
    cases ou with
    | ok v? => cases v? <;> simp_all
    | eof => simp at h
    | err => simp at h

theorem outcomeResult_some_inv {o? : Option ParseOutcome} {st : ParseState}
    {item? : Option Item} (h : outcomeResult o? st = some item?) :
    (∃ v, o? = some (.ok (some v)) ∧ item? = some (.obj v)) ∨
      (o? = some (.ok none) ∧ item? = none) ∨
      (o? = some .err ∧ item? = some .errDecode) := by
  unfold outcomeResult at h
  split at h
  · next v => exact Or.inl ⟨v, rfl, by simpa using h.symm⟩
  · split at h
    · exact Or.inr (Or.inl ⟨rfl, by simpa using h.symm⟩)
    · exact absurd h (by simp)
  · exact Or.inr (Or.inr ⟨rfl, by simpa using h.symm⟩)
  · exact absurd h (by simp)
  · exact absurd h (by simp)

theorem outcomeResult_none_inv {o? : Option ParseOutcome} {st : ParseState}
    (h : outcomeResult o? st = none) :
    o? = none ∨ o? = some .eof ∨ (o? = some (.ok none) ∧ st ≠ .finished) := by
  unfold outcomeResult at h
  split at h
  · exact absurd h (by simp)
  · split at h
    · exact absurd h (by simp)
    · next hne => exact Or.inr (Or.inr ⟨rfl, hne⟩)
  · exact absurd h (by simp)
  · exact Or.inr (Or.inl rfl)
  · exact Or.inl rfl

theorem compactStep_state (th : Option Nat) (s : RouteStream) :
    (compactStep th s).state = s.state := by
  cases th with
  | none => rfl
  | some t =>
    by_cases ht : t < s.pos
    · simp only [compactStep, if_pos ht]
    · simp only [compactStep, if_neg ht]

/-! ### Unfolding lemmas for single poll iterations -/

theorem pollNext_early {th : Option Nat} {s : RouteStream} {item? : Option Item}
    (h : pollReturn th s = some item?) (ev : List TransportEvent) :
    pollNext th s ev = (.ready item?, afterTry th s, ev) := by
  cases ev with
  | nil => rw [pollNext.eq_1, h]
  | cons e rest =>
    cases e
    · rw [pollNext.eq_2, h]
    · rw [pollNext.eq_3, h]
    · rw [pollNext.eq_4, h]

theorem pollNext_quiet_nil {th : Option Nat} {s : RouteStream}
    (h : pollReturn th s = none) :
    pollNext th s [] =
      ((endOfStream (afterTry th s)).1, (endOfStream (afterTry th s)).2, []) := by
  rw [pollNext.eq_1, h]

theorem pollNext_quiet_chunk {th : Option Nat} {s : RouteStream}
    {bytes : List Byte} {rest : List TransportEvent} (h : pollReturn th s = none) :
    pollNext th s (.chunk bytes :: rest) =
      pollNext th (appendChunk (afterTry th s) bytes) rest := by
  rw [pollNext.eq_2, h]

theorem pollNext_quiet_pending {th : Option Nat} {s : RouteStream}
    {rest : List TransportEvent} (h : pollReturn th s = none) :
    pollNext th s (.pending :: rest) = (.pending, afterTry th s, rest) := by
  rw [pollNext.eq_3, h]

theorem pollNext_quiet_terr {th : Option Nat} {s : RouteStream}
    {rest : List TransportEvent} (h : pollReturn th s = none) :
    pollNext th s (.terr :: rest) =
      (.ready (some .errHttp), { afterTry th s with state := .finished }, rest) := by
  rw [pollNext.eq_4, h]

/-- The event list delivers no chunk. -/
def chunkFree : List TransportEvent → Bool
  | [] => true
  | .chunk _ :: _ => false
  | .pending :: rest => chunkFree rest
  | .terr :: rest => chunkFree rest

/-- No chunk is delivered after a transport-level error. -/
def noChunkAfterTerr : List TransportEvent → Bool
  | [] => true
  | .chunk _ :: rest => noChunkAfterTerr rest
  | .pending :: rest => noChunkAfterTerr rest
  | .terr :: rest => chunkFree rest

theorem chunkFree_noChunkAfterTerr {ev : List TransportEvent}
    (h : chunkFree ev = true) : noChunkAfterTerr ev = true := by
  induction ev with
  | nil => rfl
  | cons e rest ih =>
    cases e with
    | chunk bytes => simp [chunkFree] at h
    | pending =>
      simp only [chunkFree] at h
      simp only [noChunkAfterTerr]
      exact ih h
    | terr =>
      simp only [chunkFree] at h
      simp only [noChunkAfterTerr]
      exact h

/-- Once the parser is `Finished`, either unconsumed bytes remain in the
buffer (so the empty-buffer restart of `appendChunk` cannot fire) or no
further chunk will ever arrive. -/
def finGuard (su : RouteStream) (ev : List TransportEvent) : Prop :=
  su.state = .finished → su.pos < su.buffer.length ∨ chunkFree ev = true

theorem pollReturn_some_guard {th : Option Nat} {s : RouteStream} {item? : Option Item}
    (h : pollReturn th s = some item?) :
    item? = none ∨ (afterTry th s).state = .readingChars ∨
      ((afterTry th s).state = .finished ∧
        (afterTry th s).pos < (afterTry th s).buffer.length) := by
  unfold pollReturn at h
  rcases outcomeResult_some_inv h with ⟨v, ho, hi⟩ | ⟨ho, hi⟩ | ⟨ho, hi⟩
  · exact Or.inr (Or.inl (tryParse_obj_rc ho))
  · exact Or.inl hi
  · exact Or.inr (Or.inr (tryParse_err_fin ho))

theorem pollReturn_none_try {th : Option Nat} {s : RouteStream}
    (h : pollReturn th s = none) :
    (tryParseNext (compactStep th s)).2 = none ∨
      (tryParseNext (compactStep th s)).2 = some .eof := by
  unfold pollReturn at h
  rcases outcomeResult_none_inv h with ho | ho | ⟨ho, hne⟩
  · exact Or.inl ho
  · exact Or.inr ho
  · exact absurd (tryParse_oknone_fin ho) hne

theorem pollReturn_none_fin {th : Option Nat} {s : RouteStream}
    (h : pollReturn th s = none) (hf : (afterTry th s).state = .finished) :
    (compactStep th s).state = .finished ∧ afterTry th s = compactStep th s := by
  have hq := pollReturn_none_try h
  have hsf := tryParse_quiet_fin hq hf
  refine ⟨hsf, ?_⟩
  unfold afterTry
  rw [tryParseNext_fin hsf]

theorem appendChunk_related {k : Nat} {sc su : RouteStream} {bytes : List Byte}
    (h : related k sc su)
    (hg : sc.buffer = [] → su.buffer ≠ [] → su.state = .readingChars) :
    related k (appendChunk sc bytes) (appendChunk su bytes) := by
  obtain ⟨hst, hk, hlen, hb, hp, hca⟩ := h
  have hkb : k ≤ su.buffer.length := le_trans hk hlen
  have hdrop : sc.buffer ++ bytes = (su.buffer ++ bytes).drop k := by
    rw [hb]
    exact (List.drop_append_of_le_length hkb).symm
  have hlen2 : su.pos ≤ (su.buffer ++ bytes).length := by
    rw [List.length_append]
    omega
  unfold appendChunk
  by_cases hce : (sc.buffer.isEmpty && !bytes.isEmpty) = true
  · rw [if_pos hce]
    rcases Bool.and_eq_true_iff.mp hce with ⟨hce1, hce2⟩
    have hscb : sc.buffer = [] := List.isEmpty_iff.mp hce1
    by_cases hue : (su.buffer.isEmpty && !bytes.isEmpty) = true
    · rw [if_pos hue]
      exact ⟨rfl, hk, hlen2, hdrop, hp, fun hx => by simp at hx⟩
    · rw [if_neg hue]
      have hsu_ne : su.buffer ≠ [] := by
        intro hx
        exact hue (Bool.and_eq_true_iff.mpr ⟨List.isEmpty_iff.mpr hx, hce2⟩)
      have hrc := hg hscb hsu_ne
      refine ⟨hrc.symm, hk, hlen2, hdrop, hp, fun hx => ?_⟩
      rw [hrc] at hx
      exact absurd hx (by decide)
  · rw [if_neg hce]
    by_cases hue : (su.buffer.isEmpty && !bytes.isEmpty) = true
    · rcases Bool.and_eq_true_iff.mp hue with ⟨hue1, hue2⟩
      have hsub : su.buffer = [] := List.isEmpty_iff.mp hue1
      have hscb : sc.buffer = [] := by
        rw [hb, hsub]
        exact List.drop_nil
      exact absurd (Bool.and_eq_true_iff.mpr ⟨List.isEmpty_iff.mpr hscb, hue2⟩) hce
    · rw [if_neg hue]
      refine ⟨hst, hk, hlen2, hdrop, hp, fun hx => ?_⟩
      obtain ⟨hbu, hk0⟩ := hca hx
      have hbe : bytes = [] := by
        by_contra hbne
        exact hue (Bool.and_eq_true_iff.mpr
          ⟨List.isEmpty_iff.mpr hbu, by simpa using hbne⟩)
      subst hbe
      rw [hbu]
      exact ⟨rfl, hk0⟩

theorem afterTry_none (s : RouteStream) : afterTry none s = (tryParseNext s).1 := rfl

theorem pollNext_related (t : Nat) (ev : List TransportEvent) :
    ∀ (k : Nat) (sc su : RouteStream),
      related k sc su → noChunkAfterTerr ev = true → finGuard su ev →
      (pollNext (some t) sc ev).1 = (pollNext none su ev).1 ∧
        (pollNext (some t) sc ev).2.2 = (pollNext none su ev).2.2 ∧
        ∃ k', related k' (pollNext (some t) sc ev).2.1 (pollNext none su ev).2.1 ∧
          noChunkAfterTerr (pollNext none su ev).2.2 = true ∧
          ((pollNext none su ev).1 ≠ .ready none →
            finGuard (pollNext none su ev).2.1 (pollNext none su ev).2.2) := by
  induction ev with
  | nil =>
    intro k sc su h hnc hg
    obtain ⟨k1, hrel1⟩ := @compactStep_related t _ _ _ h
    obtain ⟨hoeq, hrel2, hrv⟩ := tryParseNext_related hrel1
    have hpr : pollReturn (some t) sc = pollReturn none su := by
      unfold pollReturn afterTry
      rw [compactStep_none, hoeq, hrel2.1]
    cases hprv : pollReturn none su with
    | some item? =>
      rw [pollNext_early (hpr.trans hprv) _, pollNext_early hprv _]
      dsimp only
      refine ⟨rfl, rfl, k1, hrel2, rfl, ?_⟩
      intro _ _
      exact Or.inr rfl
    | none =>
      rw [pollNext_quiet_nil (hpr.trans hprv), pollNext_quiet_nil hprv]
      have hrel2' : related k1 (afterTry (some t) sc) (afterTry none su) := hrel2
      obtain ⟨hst2, hk2, hlen2, hb2, hp2, hca2⟩ := hrel2'
      have hlenc : (afterTry (some t) sc).buffer.length =
          (afterTry none su).buffer.length - k1 := by
        rw [hb2]
        exact List.length_drop _ _
      by_cases hcond : (afterTry none su).state ≠ .finished ∧
          (afterTry none su).pos < (afterTry none su).buffer.length
      · have hcondc : (afterTry (some t) sc).state ≠ .finished ∧
            (afterTry (some t) sc).pos < (afterTry (some t) sc).buffer.length := by
          refine ⟨?_, ?_⟩
          · rw [hst2]
            exact hcond.1
          · have := hcond.2
            omega
        unfold endOfStream
        rw [if_pos hcondc, if_pos hcond]
        dsimp only
        refine ⟨?_, rfl, k1, ⟨hst2, hk2, hlen2, hb2, hp2, hca2⟩, rfl, ?_⟩
        · rw [hst2]
        · intro _ hf
          exact absurd hf hcond.1
      · have hcondc : ¬((afterTry (some t) sc).state ≠ .finished ∧
            (afterTry (some t) sc).pos < (afterTry (some t) sc).buffer.length) := by
          intro hc
          apply hcond
          refine ⟨?_, ?_⟩
          · rw [← hst2]
            exact hc.1
          · have := hc.2
            omega
        unfold endOfStream
        rw [if_neg hcondc, if_neg hcond]
        dsimp only
        refine ⟨rfl, rfl, k1,
          related_setState ⟨hst2, hk2, hlen2, hb2, hp2, hca2⟩ .finished (by decide),
          rfl, fun hne => absurd rfl hne⟩
  | cons e rest ih =>
    intro k sc su h hnc hg
    obtain ⟨k1, hrel1⟩ := @compactStep_related t _ _ _ h
    obtain ⟨hoeq, hrel2, hrv⟩ := tryParseNext_related hrel1
    have hpr : pollReturn (some t) sc = pollReturn none su := by
      unfold pollReturn afterTry
      rw [compactStep_none, hoeq, hrel2.1]
    cases hprv : pollReturn none su with
    | some item? =>
      rw [pollNext_early (hpr.trans hprv) _, pollNext_early hprv _]
      dsimp only
      refine ⟨rfl, rfl, k1, hrel2, hnc, ?_⟩
      intro hne hf
      rcases pollReturn_some_guard hprv with hi | hrc | ⟨-, hlt⟩
      · subst hi
        exact absurd rfl hne
      · rw [hrc] at hf
        exact absurd hf (by decide)
      · exact Or.inl hlt
    | none =>
      cases e with
      | chunk bytes =>
        rw [pollNext_quiet_chunk (hpr.trans hprv), pollNext_quiet_chunk hprv]
        have hnc' : noChunkAfterTerr rest = true := by
          simpa [noChunkAfterTerr] using hnc
        have hrel2' : related k1 (afterTry (some t) sc) (afterTry none su) := hrel2
        have hlenc : (afterTry (some t) sc).buffer.length =
            (afterTry none su).buffer.length - k1 := by
          rw [hrel2'.2.2.2.1]
          exact List.length_drop _ _
        have hgapp : (afterTry (some t) sc).buffer = [] →
            (afterTry none su).buffer ≠ [] →
            (afterTry none su).state = .readingChars := by
          intro hce hne
          have hlc0 : (afterTry (some t) sc).buffer.length = 0 := by
            rw [hce]
            rfl
          have hlen0 : (afterTry none su).buffer.length ≤ k1 := by omega
          cases hstu : (afterTry none su).state with
          | readingChars => rfl
          | cannotAdvance =>
            obtain ⟨hbu, -⟩ := hrel2'.2.2.2.2.2 hstu
            exact absurd hbu hne
          | readingValue =>
            have hlt := hrv hstu
            have hbeq : (afterTry none su).buffer = su.buffer := tryParseNext_buffer su
            rw [hbeq] at hlen0
            omega
          | finished =>
            obtain ⟨hsf, hafix⟩ := pollReturn_none_fin hprv hstu
            rw [compactStep_none] at hsf hafix
            rcases hg hsf with hlt | hcf
            · have hk2' := hrel2'.2.1
              rw [hafix] at hk2' hlen0
              omega
            · exact absurd hcf (by simp [chunkFree])
        have happ := @appendChunk_related _ _ _ bytes hrel2' hgapp
        have hgrec : finGuard (appendChunk (afterTry none su) bytes) rest := by
          intro hf
          have hstapp : (afterTry none su).state = .finished := by
            revert hf
            unfold appendChunk
            split
            · intro hf
              simp at hf
            · intro hf
              exact hf
          obtain ⟨hsf, hafix⟩ := pollReturn_none_fin hprv hstapp
          rw [compactStep_none] at hsf hafix
          rcases hg hsf with hlt | hcf
          · left
            obtain ⟨hbap, hpap⟩ := appendChunk_parts (afterTry none su) bytes
            rw [hbap, hpap, hafix, List.length_append]
            omega
          · exact absurd hcf (by simp [chunkFree])
        exact ih k1 _ _ happ hnc' hgrec
      | pending =>
        rw [pollNext_quiet_pending (hpr.trans hprv), pollNext_quiet_pending hprv]
        dsimp only
        refine ⟨rfl, rfl, k1, hrel2, by simpa [noChunkAfterTerr] using hnc, ?_⟩
        intro _ hf
        obtain ⟨hsf, hafix⟩ := pollReturn_none_fin hprv hf
        rw [compactStep_none] at hsf hafix
        rcases hg hsf with hlt | hcf
        · left
          rw [hafix]
          exact hlt
        · right
          simpa [chunkFree] using hcf
      | terr =>
        rw [pollNext_quiet_terr (hpr.trans hprv), pollNext_quiet_terr hprv]
        dsimp only
        have hcf : chunkFree rest = true := by
          simpa [noChunkAfterTerr] using hnc
        refine ⟨rfl, rfl, k1, related_setState hrel2 .finished (by decide),
          chunkFree_noChunkAfterTerr hcf, ?_⟩
        intro _ _
        exact Or.inr hcf

theorem drive_related (t : Nat) (fuel : Nat) :
    ∀ (ev : List TransportEvent) (k : Nat) (sc su : RouteStream),
      related k sc su → noChunkAfterTerr ev = true → finGuard su ev →
      drive (some t) fuel sc ev = drive none fuel su ev := by
  induction fuel with
  | zero => intro ev k sc su _ _ _; rfl
  | succ fuel ih =>
    intro ev k sc su h hnc hg
    obtain ⟨hres, hev, k', hrel', hnc', hg'⟩ := pollNext_related t ev k sc su h hnc hg
    rcases hcpoll : pollNext (some t) sc ev with ⟨rc, sc2, evc⟩
    rcases hupoll : pollNext none su ev with ⟨ru, su2, evu⟩
    rw [hcpoll] at hres hev hrel'
    rw [hupoll] at hres hev hrel' hnc' hg'
    dsimp only at hres hev hrel' hnc' hg'
    subst hres
    subst hev
    rw [drive, drive, hcpoll, hupoll]
    cases rc with
    | pending => exact ih evc k' sc2 su2 hrel' hnc' (hg' (by simp))
    | ready item? =>
      cases item? with
      | none => rfl
      | some item =>
        dsimp only
        rw [ih evc k' sc2 su2 hrel' hnc' (hg' (by simp))]

/-! ### Behaviour of a `Finished` parser and terminality of the errors -/

/-- The event list contains no transport-level error. -/
def terrFree : List TransportEvent → Bool
  | [] => true
  | .terr :: _ => false
  | .chunk _ :: rest => terrFree rest
  | .pending :: rest => terrFree rest

theorem compactStep_pos_lt (th : Option Nat) (s : RouteStream)
    (h : s.pos < s.buffer.length) :
    (compactStep th s).pos < (compactStep th s).buffer.length := by
  cases th with
  | none => exact h
  | some t =>
    by_cases ht : t < s.pos
    · simp only [compactStep, if_pos ht]
      rw [List.length_drop]
      omega
    · simp only [compactStep, if_neg ht]
      exact h

theorem setState_fin_self {s : RouteStream} (h : s.state = .finished) :
    ({ s with state := .finished } : RouteStream) = s := by
  cases s
  simp_all

theorem pollReturn_finished {th : Option Nat} {s : RouteStream}
    (h : s.state = .finished) :
    pollReturn th s = none ∧ afterTry th s = compactStep th s := by
  have hcs : (compactStep th s).state = .finished := by
    rw [compactStep_state]
    exact h
  have htp := tryParseNext_fin hcs
  constructor
  · unfold pollReturn afterTry
    rw [htp]
    rfl
  · unfold afterTry
    rw [htp]

theorem pollNext_fin_nil (th : Option Nat) (s : RouteStream)
    (hf : s.state = .finished) :
    pollNext th s [] = (.ready none, compactStep th s, []) := by
  obtain ⟨hpr, hat⟩ := @pollReturn_finished th _ hf
  rw [pollNext_quiet_nil hpr, hat]
  have hcs : (compactStep th s).state = .finished := by
    rw [compactStep_state]
    exact hf
  unfold endOfStream
  rw [if_neg (by intro hc; exact hc.1 hcs)]
  rw [setState_fin_self hcs]

theorem pollNext_finished_run (th : Option Nat) (ev : List TransportEvent) :
    ∀ s : RouteStream, s.state = .finished → s.pos < s.buffer.length →
      terrFree ev = true →
      (pollNext th s ev).1 = .ready none ∨
        ((pollNext th s ev).1 = .pending ∧
          (pollNext th s ev).2.1.state = .finished ∧
          (pollNext th s ev).2.1.pos < (pollNext th s ev).2.1.buffer.length ∧
          terrFree (pollNext th s ev).2.2 = true) := by
  induction ev with
  | nil =>
    intro s hf hp ht
    rw [pollNext_fin_nil th s hf]
    exact Or.inl rfl
  | cons e rest ih =>
    intro s hf hp ht
    obtain ⟨hpr, hat⟩ := @pollReturn_finished th _ hf
    have hcs : (compactStep th s).state = .finished := by
      rw [compactStep_state]
      exact hf
    have hplt := compactStep_pos_lt th s hp
    cases e with
    | chunk bytes =>
      rw [pollNext_quiet_chunk hpr, hat]
      have hne : (compactStep th s).buffer.isEmpty = false := by
        rcases hb : (compactStep th s).buffer with _ | ⟨c, rest2⟩
        · rw [hb] at hplt
          simp at hplt
        · rfl
      have happ : appendChunk (compactStep th s) bytes =
          { compactStep th s with buffer := (compactStep th s).buffer ++ bytes } := by
        unfold appendChunk
        rw [if_neg (by simp [hne])]
      rw [happ]
      apply ih
      · exact hcs
      · dsimp only
        rw [List.length_append]
        omega
      · simpa [terrFree] using ht
    | pending =>
      rw [pollNext_quiet_pending hpr, hat]
      exact Or.inr ⟨rfl, hcs, hplt, by simpa [terrFree] using ht⟩
    | terr => simp [terrFree] at ht

theorem drive_finished_empty (th : Option Nat) (fuel : Nat) :
    ∀ (ev : List TransportEvent) (s : RouteStream),
      s.state = .finished → s.pos < s.buffer.length → terrFree ev = true →
      drive th fuel s ev = [] := by
  induction fuel with
  | zero => intro ev s _ _ _; rfl
  | succ fuel ih =>
    intro ev s hf hp ht
    rcases pollNext_finished_run th ev s hf hp ht with hres | ⟨hres, hf', hp', ht'⟩
    · rcases hpoll : pollNext th s ev with ⟨r, s', ev'⟩
      rw [hpoll] at hres
      dsimp only at hres
      subst hres
      rw [drive, hpoll]
    · rcases hpoll : pollNext th s ev with ⟨r, s', ev'⟩
      rw [hpoll] at hres hf' hp' ht'
      dsimp only at hres hf' hp' ht'
      subst hres
      rw [drive, hpoll]
      exact ih ev' s' hf' hp' ht'

theorem pollNext_errDecode_fin (th : Option Nat) (ev : List TransportEvent) :
    ∀ s : RouteStream, (pollNext th s ev).1 = .ready (some .errDecode) →
      (pollNext th s ev).2.1.state = .finished := by
  induction ev with
  | nil =>
    intro s hres
    cases hprv : pollReturn th s with
    | some item? =>
      rw [pollNext_early hprv] at hres ⊢
      dsimp only at hres ⊢
      have hit : item? = some .errDecode := by simpa using hres
      subst hit
      unfold pollReturn at hprv
      rcases outcomeResult_some_inv hprv with ⟨v, ho, hi⟩ | ⟨ho, hi⟩ | ⟨ho, hi⟩
      · simp at hi
      · simp at hi
      · exact (tryParse_err_fin ho).1
    | none =>
      rw [pollNext_quiet_nil hprv] at hres ⊢
      revert hres
      unfold endOfStream
      split
      · intro hres
        simp at hres
      · intro hres
        simp at hres
  | cons e rest ih =>
    intro s hres
    cases hprv : pollReturn th s with
    | some item? =>
      rw [pollNext_early hprv] at hres ⊢
      dsimp only at hres ⊢
      have hit : item? = some .errDecode := by simpa using hres
      subst hit
      unfold pollReturn at hprv
      rcases outcomeResult_some_inv hprv with ⟨v, ho, hi⟩ | ⟨ho, hi⟩ | ⟨ho, hi⟩
      · simp at hi
      · simp at hi
      · exact (tryParse_err_fin ho).1
    | none =>
      cases e with
      | chunk bytes =>
        rw [pollNext_quiet_chunk hprv] at hres ⊢
        exact ih _ hres
      | pending =>
        rw [pollNext_quiet_pending hprv] at hres
        simp at hres
      | terr =>
        rw [pollNext_quiet_terr hprv] at hres
        simp at hres

theorem pollNext_errHttp_fin (th : Option Nat) (ev : List TransportEvent) :
    ∀ s : RouteStream, (pollNext th s ev).1 = .ready (some .errHttp) →
      (pollNext th s ev).2.1.state = .finished := by
  induction ev with
  | nil =>
    intro s hres
    cases hprv : pollReturn th s with
    | some item? =>
      rw [pollNext_early hprv] at hres ⊢
      dsimp only at hres ⊢
      have hit : item? = some .errHttp := by simpa using hres
      subst hit
      unfold pollReturn at hprv
      rcases outcomeResult_some_inv hprv with ⟨v, ho, hi⟩ | ⟨ho, hi⟩ | ⟨ho, hi⟩ <;>
        simp at hi
    | none =>
      rw [pollNext_quiet_nil hprv] at hres ⊢
      revert hres
      unfold endOfStream
      split
      · intro hres
        simp at hres
      · intro hres
        simp at hres
  | cons e rest ih =>
    intro s hres
    cases hprv : pollReturn th s with
    | some item? =>
      rw [pollNext_early hprv] at hres ⊢
      dsimp only at hres ⊢
      have hit : item? = some .errHttp := by simpa using hres
      subst hit
      unfold pollReturn at hprv
      rcases outcomeResult_some_inv hprv with ⟨v, ho, hi⟩ | ⟨ho, hi⟩ | ⟨ho, hi⟩ <;>
        simp at hi
    | none =>
      cases e with
      | chunk bytes =>
        rw [pollNext_quiet_chunk hprv] at hres ⊢
        exact ih _ hres
      | pending =>
        rw [pollNext_quiet_pending hprv] at hres
        simp at hres
      | terr =>
        rw [pollNext_quiet_terr hprv] at hres ⊢

/-! ### Concrete inputs for the claims -/

/-- The bytes of the response object `{"candidates":[]}`. -/
def candObj : List Byte :=
  [123, 34, 99, 97, 110, 100, 105, 100, 97, 116, 101, 115, 34, 58, 91, 93, 125]

/-- The bytes of the JSON array `[{"candidates":[]}]`. -/
def oneObjArray : List Byte := [91] ++ candObj ++ [93]

/-- The bytes of `[{"a":}]`: the value position after the colon holds no
valid JSON value. -/
def invalidTokenArray : List Byte := [91, 123, 34, 97, 34, 58, 125, 93]

/-- The bytes of the truncated `[{"a":1`. -/
def unterminatedObj : List Byte := [91, 123, 34, 97, 34, 58, 49]

/-- Transport events of the compaction counterexample: a chunk holding
`[` and one complete object, a pending wake-up, a transport error, then
a late chunk `,{"candidates":[]}]`. -/
def compactionEvents : List TransportEvent :=
  [.chunk ([91] ++ candObj), .pending, .terr, .chunk ([44] ++ candObj ++ [93])]

/-! ### The claims -/

/-- Claim C1 (code bug): for a well-formed array of one response object
delivered as a single chunk followed by the transport's clean end — the
trivial chunk split — the pull sequence does not yield the object and
then end cleanly.  Consuming the opening `[` makes `try_parse_next`
return `None`, so the loop polls the transport again, sees the end while
still in `ReadingValue`, and emits an incomplete-stream error item
before the object is ever decoded. -/
theorem c1_single_chunk_array_errors :
    drive codeThreshold 6 initStream [.chunk oneObjArray] =
      [.errCustom (incompleteMsg .readingValue), .obj candObj] := by
  rfl

/-- Claim C2 (code bug): the structurally invalid `[{"a":}]` delivered as
one chunk does not produce a single decode-error item.  The first pull
emits an incomplete-stream error (the parser still in `ReadingValue`,
not `Done`), and only the next pull reaches the decode error — two error
items in total. -/
theorem c2_invalid_token_two_errors :
    drive codeThreshold 6 initStream [.chunk invalidTokenArray] =
      [.errCustom (incompleteMsg .readingValue), .errDecode] := by
  rfl

/-- Claim C3 counterexample: with compaction enabled (threshold 1, one of
the thresholds the spec's own test list prescribes) the compacted run and
the uncompacted run of the same transport deliver different item
sequences: after compaction has emptied the buffer and a transport error
has finished the parser, a late chunk restarts the compacted parser via
the empty-buffer check but not the uncompacted one. -/
theorem c3_compaction_changes_items :
    drive (some 1) 10 initStream compactionEvents ≠
      drive none 10 initStream compactionEvents := by
  decide

/-- Claim C3 (amended): buffer compaction does not alter the produced
item sequence provided the transport delivers no chunk after a
transport-level error: for every threshold, every fuel and every such
event sequence, the compacting and the never-compacting runs agree. -/
theorem c3_compaction_equiv (t : Nat) (fuel : Nat) (ev : List TransportEvent)
    (h : noChunkAfterTerr ev = true) :
    drive (some t) fuel initStream ev = drive none fuel initStream ev :=
  drive_related t fuel ev 0 initStream initStream
    ⟨rfl, Nat.le_refl 0, Nat.le_refl 0, rfl, rfl, fun _ => ⟨rfl, rfl⟩⟩ h
    (fun hf => absurd hf (by decide))

theorem c3_compaction_equiv_witness :
    noChunkAfterTerr [.chunk oneObjArray, .pending] = true ∧
      drive (some 2048) 8 initStream [.chunk oneObjArray, .pending] =
        drive none 8 initStream [.chunk oneObjArray, .pending] :=
  ⟨by decide, c3_compaction_equiv 2048 8 _ (by decide)⟩

/-- Claim C4 (code bug): the empty array `[]` delivered as one chunk does
not yield zero items and a clean end.  The first pull emits an
incomplete-stream error (the `[` was consumed, the `]` never examined
before the transport's end was seen), and the next pull feeds the `]` to
the value decoder, producing a decode error. -/
theorem c4_empty_array_errors :
    drive codeThreshold 6 initStream [.chunk [91, 93]] =
      [.errCustom (incompleteMsg .readingValue), .errDecode] := by
  rfl

/-- Claim C5 counterexample: the incomplete-stream error does not describe
the leftover byte count: two buffers left with different numbers of
unconsumed bytes produce identical error items at the transport's clean
end, so the count cannot be recovered from the item. -/
theorem c5_error_omits_leftover_count :
    (endOfStream { buffer := [91, 123], pos := 1, state := .readingValue }).1 =
        (endOfStream { buffer := [91, 123, 34, 97], pos := 1, state := .readingValue }).1 ∧
      ([91, 123] : List Byte).length - 1 ≠ ([91, 123, 34, 97] : List Byte).length - 1 := by
  decide

/-- Claim C5 (amended): when the transport signals a clean end, the
sequence finishes with no error exactly when the parser is `Finished` or
no unconsumed bytes remain; otherwise one incomplete-stream error item is
produced whose message describes the parser's current state (and not the
leftover byte count, which the message omits — see the counterexample). -/
theorem c5_end_of_stream_behavior (s : RouteStream) :
    (s.state = .finished ∨ s.buffer.length ≤ s.pos →
        endOfStream s = (.ready none, { s with state := .finished })) ∧
      (s.state ≠ .finished → s.pos < s.buffer.length →
        endOfStream s =
          (.ready (some (.errCustom
            ("stream ended with unparsed data in state " ++ stateName s.state))), s)) := by
  constructor
  · intro hor
    have hnc : ¬(s.state ≠ .finished ∧ s.pos < s.buffer.length) := by
      intro hc
      rcases hor with hf | hle
      · exact hc.1 hf
      · omega
    unfold endOfStream
    rw [if_neg hnc]
  · intro h1 h2
    unfold endOfStream
    rw [if_pos ⟨h1, h2⟩]
    rfl

theorem c5_end_of_stream_witness :
    endOfStream { buffer := [91], pos := 1, state := .readingValue } =
        (.ready none, { buffer := [91], pos := 1, state := .finished }) ∧
      endOfStream { buffer := [91], pos := 0, state := .readingValue } =
        (.ready (some (.errCustom
          ("stream ended with unparsed data in state " ++ stateName .readingValue))),
          { buffer := [91], pos := 0, state := .readingValue }) :=
  ⟨(c5_end_of_stream_behavior _).1 (Or.inr (by decide)),
    (c5_end_of_stream_behavior _).2 (by decide) (by decide)⟩

/-- Claim C6 counterexample: after a transport ending with the
unterminated `[{"a":1`, the incomplete-stream error is yielded again by
the second pull — not exactly once across all pulls — because its return
path leaves the parser state unchanged. -/
theorem c6_incomplete_error_repeats :
    drive codeThreshold 2 initStream [.chunk unterminatedObj] =
      [.errCustom (incompleteMsg .readingValue),
        .errCustom (incompleteMsg .readingValue)] := by
  rfl

/-- Claim C6 (amended): decode-error and transport-error items are
terminal — whenever `poll_next` returns one, the parser is left in the
`Finished` state, and in that state a pull against the drained transport
returns end-of-sequence with no item.  The incomplete-stream error is not
terminal (see the counterexample). -/
theorem c6_error_terminality (th : Option Nat) (s : RouteStream)
    (ev : List TransportEvent) :
    ((pollNext th s ev).1 = .ready (some .errDecode) →
        (pollNext th s ev).2.1.state = .finished) ∧
      ((pollNext th s ev).1 = .ready (some .errHttp) →
        (pollNext th s ev).2.1.state = .finished) ∧
      (s.state = .finished → pollNext th s [] = (.ready none, compactStep th s, [])) :=
  ⟨pollNext_errDecode_fin th ev s, pollNext_errHttp_fin th ev s, pollNext_fin_nil th s⟩

theorem c6_error_terminality_witness :
    (pollNext codeThreshold { buffer := [91, 93], pos := 1, state := .readingValue } []).2.1.state
        = .finished ∧
      (pollNext codeThreshold initStream [.terr]).2.1.state = .finished ∧
      pollNext codeThreshold { buffer := [93], pos := 0, state := .finished } [] =
        (.ready none,
          compactStep codeThreshold { buffer := [93], pos := 0, state := .finished }, []) :=
  ⟨(c6_error_terminality codeThreshold _ []).1 (by decide),
    (c6_error_terminality codeThreshold _ [.terr]).2.1 (by decide),
    (c6_error_terminality codeThreshold _ []).2.2 rfl⟩

/-- Claim C7: a decode attempt in `ReadingValue` that fails with the
eof-kind error (a syntactically valid but incomplete prefix, not a
syntax error) leaves the parser state unchanged and the cursor exactly at
the attempt's skip-adjusted start position, and the outcome is treated as
"need more data": the `poll_next` match produces no item for it. -/
theorem c7_eof_preserves_state (s : RouteStream)
    (h1 : s.state = .readingValue)
    (h2 : serdeNext (s.buffer.drop (skipPos s)) = .eof) :
    tryParseNext s = ({ s with pos := skipPos s }, some .eof) ∧
      outcomeResult (some .eof) s.state = none := by
  refine ⟨?_, rfl⟩
  rw [tryParseNext_rv h1]
  have hpc : parseChunk { s with pos := skipPos s } =
      ({ s with pos := skipPos s }, .eof) := by
    unfold parseChunk
    rw [show ({ s with pos := skipPos s } : RouteStream).buffer.drop
      ({ s with pos := skipPos s } : RouteStream).pos = s.buffer.drop (skipPos s) from rfl, h2]
  rw [hpc]

theorem c7_eof_witness :
    tryParseNext { buffer := [91, 123], pos := 1, state := .readingValue } =
        ({ buffer := [91, 123], pos := 1, state := .readingValue }, some .eof) ∧
      outcomeResult (some .eof) ParseState.readingValue = none :=
  c7_eof_preserves_state { buffer := [91, 123], pos := 1, state := .readingValue } rfl
    (by decide)

/-- Claim C8: a successful decode in `ReadingValue` advances the cursor by
exactly the decoder's reported byte count from the attempt's
skip-adjusted start — the buffer itself is unchanged, so any following
`,` or `]` is preserved for the next state — the state becomes
`ReadingChars`, and `poll_next` yields the decoded object. -/
theorem c8_value_advances_exactly (s : RouteStream) (n : Nat)
    (h1 : s.state = .readingValue)
    (h2 : serdeNext (s.buffer.drop (skipPos s)) = .value n) :
    tryParseNext s =
      ({ s with pos := skipPos s + n, state := .readingChars },
        some (.ok (some ((s.buffer.drop (skipPos s)).take n)))) ∧
      outcomeResult (some (.ok (some ((s.buffer.drop (skipPos s)).take n))))
          ParseState.readingChars =
        some (some (.obj ((s.buffer.drop (skipPos s)).take n))) := by
  refine ⟨?_, rfl⟩
  rw [tryParseNext_rv h1]
  have hpc : parseChunk { s with pos := skipPos s } =
      ({ s with pos := skipPos s + n },
        .ok (some ((s.buffer.drop (skipPos s)).take n))) := by
    unfold parseChunk
    rw [show ({ s with pos := skipPos s } : RouteStream).buffer.drop
      ({ s with pos := skipPos s } : RouteStream).pos = s.buffer.drop (skipPos s) from rfl, h2]
  rw [hpc]

theorem c8_value_witness :
    tryParseNext { buffer := [91] ++ candObj, pos := 1, state := .readingValue } =
        ({ buffer := [91] ++ candObj, pos := 18, state := .readingChars },
          some (.ok (some candObj))) ∧
      outcomeResult (some (.ok (some candObj))) ParseState.readingChars =
        some (some (.obj candObj)) :=
  c8_value_advances_exactly { buffer := [91] ++ candObj, pos := 1, state := .readingValue }
    17 rfl (by decide)

/-- Claim C9: the cursor invariant `0 ≤ pos ≤ buffer.length` is preserved
by every operation — `try_parse_next` (whitespace skip, bridge consume
and decode advance never move the cursor backwards and never change the
buffer), appending a chunk, and compaction — compaction is exactly the
drop of the consumed prefix `[0, pos)` with the cursor reduced by the
dropped length (and is the identity below the threshold); consequently a
full `poll_next` iteration preserves the invariant.  (`0 ≤ pos` is
inherent to `Nat`.) -/
theorem c9_cursor_invariant (s : RouteStream) (bytes : List Byte) (t : Nat)
    (th : Option Nat) (ev : List TransportEvent)
    (h : s.pos ≤ s.buffer.length) :
    ((tryParseNext s).1.buffer = s.buffer ∧ s.pos ≤ (tryParseNext s).1.pos ∧
        (tryParseNext s).1.pos ≤ (tryParseNext s).1.buffer.length) ∧
      s.pos ≤ (s.buffer ++ bytes).length ∧
      (t < s.pos → compactStep (some t) s =
        { buffer := s.buffer.drop s.pos, pos := s.pos - s.pos, state := s.state }) ∧
      (¬t < s.pos → compactStep (some t) s = s) ∧
      (compactStep th s).pos ≤ (compactStep th s).buffer.length ∧
      (pollNext th s ev).2.1.pos ≤ (pollNext th s ev).2.1.buffer.length := by
  refine ⟨⟨tryParseNext_buffer s, (tryParseNext_pos s h).1, ?_⟩, ?_, ?_, ?_,
    (compactStep_pos th s h).1, pollNext_pos th ev s h⟩
  · rw [tryParseNext_buffer]
    exact (tryParseNext_pos s h).2
  · rw [List.length_append]
    omega
  · intro ht
    simp only [compactStep, if_pos ht, Nat.sub_self]
  · intro ht
    simp only [compactStep, if_neg ht]

theorem c9_cursor_invariant_witness :
    (tryParseNext { buffer := [91, 123], pos := 1, state := .readingValue }).1.buffer
        = [91, 123] ∧
      compactStep (some 0) { buffer := [91, 123], pos := 1, state := .readingValue } =
        { buffer := [123], pos := 1 - 1, state := .readingValue } := by
  have h9 := c9_cursor_invariant { buffer := [91, 123], pos := 1, state := .readingValue }
    [32] 0 codeThreshold [.pending] (by decide)
  exact ⟨h9.1.1, h9.2.2.1 (by decide)⟩

/-- Claim C10: reaching `Finished` through the closing `]` leaves the `]`
itself (and whatever follows) in the buffer — `try_parse_next` stops with
the cursor strictly before the buffer end, yielding `Ok(None)` — and that
buffered leftover never surfaces as an error: driven from that state over
any remaining transport events free of transport-level errors, the stream
yields no further item, because the clean-end check fires only in
non-`Finished` states. -/
theorem c10_done_leftover_never_errors (s : RouteStream) (th : Option Nat)
    (fuel : Nat) (ev : List TransportEvent)
    (h1 : s.state = .readingChars)
    (h2 : currentChar { s with pos := skipPos s } = some 93)
    (hterr : terrFree ev = true) :
    tryParseNext s = ({ s with pos := skipPos s, state := .finished }, some (.ok none)) ∧
      skipPos s < s.buffer.length ∧
      drive th fuel { s with pos := skipPos s, state := .finished } ev = [] := by
  have hlt : skipPos s < s.buffer.length := currentChar_some_lt h2
  refine ⟨?_, hlt, ?_⟩
  · rw [tryParseNext_rc h1]
    have hnb : ¬isBridgeChar { s with pos := skipPos s } = true := by
      unfold isBridgeChar
      rw [h2]
      simp
    rw [if_neg hnb, if_pos h2]
  · exact drive_finished_empty th fuel ev _ rfl hlt hterr

theorem c10_done_leftover_witness :
    tryParseNext { buffer := [93], pos := 0, state := .readingChars } =
        ({ buffer := [93], pos := 0, state := .finished }, some (.ok none)) ∧
      drive codeThreshold 3 { buffer := [93], pos := 0, state := .finished }
        [.chunk [32], .pending] = [] := by
  have h10 := c10_done_leftover_never_errors { buffer := [93], pos := 0, state := .readingChars }
    codeThreshold 3 [.chunk [32], .pending] rfl (by decide) (by decide)
  exact ⟨h10.1, h10.2.2⟩

end GeminiRs
